import Mathlib

/-!
Shallow embedding of `cmd/simple-db-bench/main.go` from `zeta1999/go-simple-db`.

The program is a benchmark driver for a key-value storage engine.  We embed the
benchmark scheduling and coordination layer: the dispatcher `config.runBench`,
the compaction daemon `startCompaction`, the per-benchmark bodies wired up in
`main`, and the fan-out/join pattern those bodies use.

Modelling choices:
* Calls into the engine under test (`Write`, `Read`, `Compact`, `Fill`,
  `Reset`), bencher bookkeeping (`finishOp`, `finish`, `stop`) and the daemon
  control-channel events are recorded as an event trace (`Ev`).
* Goroutine nondeterminism is captured by explicit schedules: the daemon loop
  takes a list of booleans (whether a receiver is ready at each `select`), and
  the fan-out workers are interleaved by a list of worker indices.  Every real
  execution corresponds to some schedule.
* Console output is modelled as a list of structured `Line`s.
* `regexp` is external to the repository; a compiled pattern is embedded as its
  matching function `String → Bool`, and compilation as an oracle
  `String → Option (String → Bool)`.
-/

namespace SimpleDbBench

/-- Observable events at the bencher/engine boundary. -/
inductive Ev where
  /-- `b.Fill()` -/
  | fill
  /-- `b.Reset()` -/
  | reset
  /-- `b.Write(tid)` -/
  | write (tid : Nat)
  /-- `b.Read(tid)` -/
  | read (tid : Nat)
  /-- `b.finishOp(tid, outcome)` -/
  | finishOp (tid : Nat)
  /-- a foreground `b.Compact()` issued by a benchmark body -/
  | compact
  /-- one full `b.Compact()` performed by the compaction daemon -/
  | dcompact
  /-- `startCompaction(b)` spawns the daemon goroutine -/
  | dstart
  /-- the stop handshake: the daemon's `done <- numCompactions` pairs with the
      caller's blocking receive, delivering the count `n`; the daemon returns -/
  | handshake (n : Nat)
  /-- worker `tid` sends its completion signal `done <- true` -/
  | done (tid : Nat)
  /-- `b.finish()`: finalize the timing window and print the summary -/
  | finishB
  /-- `b.stop()`: release the handle and its engine resources -/
  | stopB
  deriving DecidableEq, Repr

/-- Console output, structured: one constructor per kind of line printed. -/
inductive Line where
  /-- `fmt.Println(name)` in list mode -/
  | nameOnly (s : String)
  /-- the timing/throughput summary printed by `b.finish()` -/
  | summary (s : String)
  /-- `fmt.Printf("  finished %d compactions\n", n)` -/
  | compactions (n : Nat)
  deriving DecidableEq, Repr

def isWrite : Ev → Bool
  | .write _ => true
  | _ => false

def isRead : Ev → Bool
  | .read _ => true
  | _ => false

def isDone : Ev → Bool
  | .done _ => true
  | _ => false

def isFinishEv : Ev → Bool
  | .finishB => true
  | _ => false

def isHandshakeEv : Ev → Bool
  | .handshake _ => true
  | _ => false

def isStopEv : Ev → Bool
  | .stopB => true
  | _ => false

def isDCompact : Ev → Bool
  | .dcompact => true
  | _ => false

/-- The worker (goroutine lane) an event is attributed to, if any. -/
def evTid : Ev → Option Nat
  | .write t => some t
  | .read t => some t
  | .finishOp t => some t
  | .done t => some t
  | _ => none

/-- `belongs tid e` holds when event `e` is attributed to worker `tid`. -/
def belongs (tid : Nat) (e : Ev) : Bool := evTid e == some tid

/-- The `config` struct of main.go.  The compiled `*regexp.Regexp` field
`BenchFilter` is embedded as its `MatchString` function. -/
structure Config where
  DatabaseDir : String
  DatabaseSize : Int
  BenchFilter : String → Bool
  ListBenches : Bool

/-- Modelled from the spec: the Bench Handle (`bencher`, defined outside the
visible source) holds the engine reference, the benchmark name, the
parallelism, and a finished flag; `IsFinished` reads the flag and `finish`
sets it while finalizing timing and printing the summary. -/
structure Bencher where
  name : String
  par : Nat
  finished : Bool

/-- `newBench(conf, name, par)`: a fresh handle, not yet finished. -/
def newBench (name : String) (par : Nat) : Bencher :=
  { name := name, par := par, finished := false }

/-- Modelled from the spec: `IsFinished` reports whether the handle was
explicitly finished. -/
def Bencher.IsFinished (b : Bencher) : Bool := b.finished

/-- Straight-line commands a sequential benchmark body issues on its handle. -/
inductive Cmd where
  | write (tid : Nat)
  | read (tid : Nat)
  | compact
  | fill
  | reset
  | finishOp (tid : Nat)
  | finish
  deriving DecidableEq, Repr

/-- One command against the handle: the resulting handle and the emitted
events.  `finish` is the only command that changes the handle (it sets the
finished flag, modelled from the spec). -/
def execCmd (b : Bencher) : Cmd → Bencher × List Ev
  | .write tid => (b, [Ev.write tid])
  | .read tid => (b, [Ev.read tid])
  | .compact => (b, [Ev.compact])
  | .fill => (b, [Ev.fill])
  | .reset => (b, [Ev.reset])
  | .finishOp tid => (b, [Ev.finishOp tid])
  | .finish => ({ b with finished := true }, [Ev.finishB])

/-- Run a straight-line body to completion. -/
def execCmds (b : Bencher) : List Cmd → Bencher × List Ev
  | [] => (b, [])
  | c :: cs =>
    let r := execCmd b c
    let r2 := execCmds r.1 cs
    (r2.1, r.2 ++ r2.2)

/-- Which console line (if any) an event prints, for a benchmark named
`name`: `b.finish()` prints the timing summary, the daemon stop prints the
compaction count. -/
def printedLines (name : String) : Ev → Option Line
  | .finishB => some (Line.summary name)
  | .handshake n => some (Line.compactions n)
  | _ => none

/-- The dispatcher `config.runBench`, with the body abstracted to the events
it emits plus whether it explicitly finished the handle.  Mirrors main.go:
skip when the filter does not match; print only the name in list mode;
otherwise run the body, apply the implicit `b.finish()` when the body did not
finish, and release with `b.stop()`. -/
def runBenchT (conf : Config) (name : String) (body : List Ev × Bool) :
    List Line × List Ev :=
  if !(conf.BenchFilter name) then ([], [])
  else if conf.ListBenches then ([Line.nameOnly name], [])
  else
    let evs := body.1 ++ (if !body.2 then [Ev.finishB] else []) ++ [Ev.stopB]
    (evs.filterMap (printedLines name), evs)

/-- `config.runBench` for a straight-line (sequential) body. -/
def runBench (conf : Config) (name : String) (par : Nat) (cmds : List Cmd) :
    List Line × List Ev :=
  let r := execCmds (newBench name par) cmds
  runBenchT conf name (r.2, r.1.IsFinished)

/-- Go's 64-bit `int` multiplication: the mathematical product wrapped
(two's complement) into the range `[-2^63, 2^63)`. -/
def int64Mul (a b : Int) : Int := (a * b + 2 ^ 63) % 2 ^ 64 - 2 ^ 63

/-- Number of loop iterations `for i := 0; i < 1000*kiters; i++` performs:
`1000*kiters` is Go's wrapping 64-bit `int` multiplication, and a loop with
a non-positive bound runs zero iterations. -/
def nIters (kiters : Int) : Nat := (int64Mul 1000 kiters).toNat

/-- The `"writes"` body: `1000*kiters` iterations of
`b.finishOp(0, b.Write(0))`, then one `b.Compact()`. -/
def writesBody (kiters : Int) : List Cmd :=
  ((List.range (nIters kiters)).map (fun _ => [Cmd.write 0, Cmd.finishOp 0])).flatten
    ++ [Cmd.compact]

/-- The `"rbuf reads"` body: `Fill`, `Reset`, then the read loop. -/
def rbufReadsBody (kiters : Int) : List Cmd :=
  [Cmd.fill, Cmd.reset]
    ++ ((List.range (nIters kiters)).map (fun _ => [Cmd.read 0, Cmd.finishOp 0])).flatten

/-- The `"table reads"` body: `Fill`, two `Compact`s, `Reset`, the read loop. -/
def tableReadsBody (kiters : Int) : List Cmd :=
  [Cmd.fill, Cmd.compact, Cmd.compact, Cmd.reset]
    ++ ((List.range (nIters kiters)).map (fun _ => [Cmd.read 0, Cmd.finishOp 0])).flatten

/-! ## The compaction daemon (`startCompaction`)

The goroutine loops on a `select`: when a receiver is ready on `done` it sends
`numCompactions` and returns; otherwise (the `default` branch) it performs one
`b.Compact()` and increments `numCompactions`.  The schedule records, for each
loop iteration, whether a receiver was ready at the `select`. -/

/-- The daemon loop at current count `n`, driven by a schedule.  Returns the
emitted events and `some n` when the loop stopped by delivering `n`, `none`
when the observation window ended with the daemon still running. -/
def daemonLoop : Nat → List Bool → List Ev × Option Nat
  | _, [] => ([], none)
  | n, true :: _ => ([Ev.handshake n], some n)
  | n, false :: sched =>
    let r := daemonLoop (n + 1) sched
    (Ev.dcompact :: r.1, r.2)

/-- `startCompaction(b)`: the daemon starts with `numCompactions = 0`. -/
def startCompaction (sched : List Bool) : List Ev × Option Nat :=
  daemonLoop 0 sched

/-! ## The parallel fan-out pattern

Each benchmark with parallelism spawns `par` goroutines
`go func(tid int) { loop; done <- true }(tid)` for `tid` in `[0, par)` and then
performs `par` blocking receives on `done`.  A worker's events are its loop
events followed by its completion signal; a scheduler interleaves the workers'
event sequences.  The join blocks until every worker has signalled, so the
observed trace of the fan-out region is a complete interleaving. -/

/-- The event sequence of one fan-out worker: `iters` iterations of
`b.finishOp(tid, b.Read(tid))`, then the completion signal `done <- true`. -/
def workerEvs (iters tid : Nat) : List Ev :=
  ((List.range iters).map (fun _ => [Ev.read tid, Ev.finishOp tid])).flatten
    ++ [Ev.done tid]

/-- The `for tid := 0; tid < par; tid++ { go ... }` loop: one worker event
sequence per spawned goroutine, worker ids `0, 1, ..., par-1`. -/
def spawnWorkers (par iters : Nat) : List (List Ev) :=
  (List.range par).map (workerEvs iters)

/-- Interleave a family of per-goroutine event sequences under a scheduler:
at each step the scheduler names which sequence emits its next event (a name
pointing at an exhausted or missing sequence is skipped); when the scheduler
is exhausted the remaining events are drained in order.  Every complete
concurrent execution is `interleave ls sched` for some `sched`. -/
def interleave : List (List Ev) → List Nat → List Ev
  | ls, [] => ls.flatten
  | ls, i :: sched =>
    match ls.get? i with
    | some (e :: rest) => e :: interleave (ls.set i rest) sched
    | _ => interleave ls sched

/-! ## The concurrent benchmark bodies

A body that starts the daemon corresponds to four phases: the sequential
prefix, the region where the daemon (having completed `pre` compactions)
runs concurrently with the foreground work, the explicit `b.finish()`, the
daemon compactions between the finish and the stop receive (`post` of them),
and the stop handshake, which delivers `pre + post`. -/

/-- The events of `n` iterations of `b.finishOp(0, b.Write(0))`. -/
def writeBlockEv (n : Nat) : List Ev :=
  ((List.range n).map (fun _ => [Ev.write 0, Ev.finishOp 0])).flatten

/-- The `"write + compact"` body: `Fill`, `Reset`, `startCompaction`, the
write loop concurrent with the daemon, `b.finish()`, then the stop receive. -/
def writeCompactBody (kiters : Int) (pre post : Nat) (sched : List Nat) :
    List Ev :=
  [Ev.fill, Ev.reset, Ev.dstart]
    ++ interleave [writeBlockEv (nIters kiters),
         List.replicate pre Ev.dcompact] sched
    ++ [Ev.finishB]
    ++ List.replicate post Ev.dcompact
    ++ [Ev.handshake (pre + post)]

/-- The `"table reads (par=N)"` body: `Fill`, `Compact`, `Compact`, `Reset`,
then the fan-out/join of `par` read workers. -/
def tableReadsParBody (par : Nat) (kiters : Int) (sched : List Nat) : List Ev :=
  [Ev.fill, Ev.compact, Ev.compact, Ev.reset]
    ++ interleave (spawnWorkers par (nIters kiters)) sched

/-- The `"rbuf reads (par=N)"` body: `Fill`, `Compact`, `Reset`, then the
fan-out/join of `par` read workers. -/
def rbufReadsParBody (par : Nat) (kiters : Int) (sched : List Nat) : List Ev :=
  [Ev.fill, Ev.compact, Ev.reset]
    ++ interleave (spawnWorkers par (nIters kiters)) sched

/-- The `"read par=N + compact"` body: `Fill`, `Compact`, `Reset`,
`startCompaction`, the fan-out/join of `par` read workers concurrent with the
daemon, `b.finish()`, then the stop receive. -/
def readParCompactBody (par : Nat) (kiters : Int) (pre post : Nat)
    (sched : List Nat) : List Ev :=
  [Ev.fill, Ev.compact, Ev.reset, Ev.dstart]
    ++ interleave (spawnWorkers par (nIters kiters)
                     ++ [List.replicate pre Ev.dcompact]) sched
    ++ [Ev.finishB]
    ++ List.replicate post Ev.dcompact
    ++ [Ev.handshake (pre + post)]

/-! ## Startup and the whole run -/

/-- Go's `regexp.MustCompile(".*").MatchString` is true of every string; this
is the default filter installed when the `-run` flag is empty. -/
def matchAll : String → Bool := fun _ => true

/-- The filter setup in `main`: an empty `-run` flag compiles `".*"` (match
everything); otherwise the pattern is compiled, and a compilation error is
fatal (`log.Fatalf`) before any benchmark runs.  `compileRx` is the external
`regexp.Compile`, returning the compiled pattern's matching function. -/
def setupBenchFilter (compileRx : String → Option (String → Bool))
    (filterString : String) : Except String (String → Bool) :=
  if filterString = "" then .ok matchAll
  else
    match compileRx filterString with
    | some r => .ok r
    | none => .error ("invalid BenchFilter " ++ filterString)

/-- Benchmark names built with `fmt.Sprintf` in `main`. -/
def tableReadsParName (par : Nat) : String :=
  "table reads (par=" ++ toString par ++ ")"

def rbufReadsParName (par : Nat) : String :=
  "rbuf reads (par=" ++ toString par ++ ")"

def readParCompactName (par : Nat) : String :=
  "read par=" ++ toString par ++ " + compact"

/-- Scheduling parameters for the concurrent benchmarks of one run. -/
structure RunSched where
  wcPre : Nat
  wcPost : Nat
  wcSched : List Nat
  trSched : List Nat
  rrSched : List Nat
  rpPre : Nat
  rpPost : Nat
  rpSched : List Nat

/-- The seven `conf.runBench` dispatches of `main`, in source order.  The
bodies that call `b.finish()` explicitly pass `true` as the finished flag. -/
def allBenches (conf : Config) (kiters : Int) (par : Nat) (sc : RunSched) :
    List Line × List Ev :=
  let r1 := runBench conf "writes" 1 (writesBody kiters)
  let r2 := runBenchT conf "write + compact"
    (writeCompactBody kiters sc.wcPre sc.wcPost sc.wcSched, true)
  let r3 := runBench conf "rbuf reads" 1 (rbufReadsBody kiters)
  let r4 := runBench conf "table reads" 1 (tableReadsBody kiters)
  let r5 := runBenchT conf (tableReadsParName par)
    (tableReadsParBody par kiters sc.trSched, false)
  let r6 := runBenchT conf (rbufReadsParName par)
    (rbufReadsParBody par kiters sc.rrSched, false)
  let r7 := runBenchT conf (readParCompactName par)
    (readParCompactBody par kiters sc.rpPre sc.rpPost sc.rpSched, true)
  (r1.1 ++ r2.1 ++ r3.1 ++ r4.1 ++ r5.1 ++ r6.1 ++ r7.1,
   r1.2 ++ r2.2 ++ r3.2 ++ r4.2 ++ r5.2 ++ r6.2 ++ r7.2)

/-- `main` after flag parsing: compile the filter (fatal on error, before any
benchmark), then dispatch every benchmark. -/
def mainRun (compileRx : String → Option (String → Bool))
    (filterString : String) (listB : Bool) (kiters : Int) (par : Nat)
    (sc : RunSched) : Except String (List Line × List Ev) :=
  match setupBenchFilter compileRx filterString with
  | .error e => .error e
  | .ok filt =>
    .ok (allBenches
      { DatabaseDir := "bench.dir", DatabaseSize := 10000,
        BenchFilter := filt, ListBenches := listB } kiters par sc)

/-! ## Literal regular-expression matching

`regexp.MatchString` is unanchored: it reports whether the pattern matches
anywhere in the string.  For a pattern without metacharacters this is exactly
substring occurrence, which we embed directly. -/

/-- Whether `pat` is a prefix of `s` (character lists). -/
def startsWith : List Char → List Char → Bool
  | [], _ => true
  | _ :: _, [] => false
  | p :: ps, c :: cs => p == c && startsWith ps cs

/-- Whether `pat` occurs (contiguously) anywhere in `s`. -/
def containsSeq (pat : List Char) : List Char → Bool
  | [] => startsWith pat []
  | c :: cs => startsWith pat (c :: cs) || containsSeq pat cs

/-- `MatchString` of a compiled literal (metacharacter-free) pattern:
unanchored, true iff the pattern occurs as a substring of the name. -/
def literalMatch (pat s : String) : Bool := containsSeq pat.toList s.toList

/-! ## Daemon lemmas -/

/-- Invariant of the daemon loop: when the loop stops by delivering `n`, the
value delivered is the starting count plus the compactions in the emitted
trace, the handshake is the last event, and it occurs exactly once. -/
theorem daemonLoop_exact (sched : List Bool) :
    ∀ k n : Nat, (daemonLoop k sched).2 = some n →
      n = k + (daemonLoop k sched).1.count Ev.dcompact
    ∧ (daemonLoop k sched).1.getLast? = some (Ev.handshake n)
    ∧ (daemonLoop k sched).1.countP isHandshakeEv = 1 := by
  induction sched with
  | nil => intro k n h; simp [daemonLoop] at h
  | cons b rest ih =>
    intro k n h
    cases b with
    | true =>
      simp only [daemonLoop, Option.some.injEq] at h
      subst h
      refine ⟨by simp [daemonLoop], by simp [daemonLoop], ?_⟩
      simp [daemonLoop, isHandshakeEv]
    | false =>
      simp only [daemonLoop] at h
      obtain ⟨h1, h2, h3⟩ := ih (k + 1) n h
      refine ⟨?_, ?_, ?_⟩
      · simpa [daemonLoop, List.count_cons, Nat.add_comm, Nat.add_assoc,
          Nat.add_left_comm] using h1
      · cases htr : (daemonLoop (k + 1) rest).1 with
        | nil => rw [htr] at h2; simp at h2
        | cons x xs =>
          rw [htr] at h2
          simpa [daemonLoop, htr] using h2
      · simpa [daemonLoop, List.countP_cons, isHandshakeEv] using h3

/-- C1: the value received by the caller's blocking receive on the control
channel equals exactly the number of compactions that had fully completed
strictly before the stop handshake (the handshake is the last event of the
daemon's trace, so every daemon compaction in the trace precedes it); the
handshake occurs exactly once, the daemon runs no further compactions after
it, and receiving before any compaction completes yields 0. -/
theorem startCompaction_handshake_exact (sched : List Bool) (n : Nat)
    (h : (startCompaction sched).2 = some n) :
    n = (startCompaction sched).1.count Ev.dcompact
  ∧ (startCompaction sched).1.getLast? = some (Ev.handshake n)
  ∧ (startCompaction sched).1.countP isHandshakeEv = 1
  ∧ (sched.head? = some true → n = 0) := by
  obtain ⟨h1, h2, h3⟩ := daemonLoop_exact sched 0 n h
  refine ⟨by simpa using h1, h2, h3, ?_⟩
  intro hh
  cases sched with
  | nil => simp at hh
  | cons b rest =>
    simp only [List.head?_cons, Option.some.injEq] at hh
    subst hh
    simp only [startCompaction, daemonLoop, Option.some.injEq] at h
    omega

/-- Concrete instance of C1: with one compaction completed before the
receiver becomes ready, the received value is 1. -/
theorem startCompaction_handshake_exact_w :
    1 = (startCompaction [false, true]).1.count Ev.dcompact
  ∧ (startCompaction [false, true]).1.getLast? = some (Ev.handshake 1)
  ∧ (startCompaction [false, true]).1.countP isHandshakeEv = 1
  ∧ (([false, true] : List Bool).head? = some true → 1 = 0) :=
  startCompaction_handshake_exact [false, true] 1 rfl

/-! ## Dispatcher and straight-line body lemmas -/

/-- The single event a command emits. -/
def evOfCmd : Cmd → Ev
  | .write t => Ev.write t
  | .read t => Ev.read t
  | .compact => Ev.compact
  | .fill => Ev.fill
  | .reset => Ev.reset
  | .finishOp t => Ev.finishOp t
  | .finish => Ev.finishB

theorem execCmds_trace (b : Bencher) (cs : List Cmd) :
    (execCmds b cs).2 = cs.map evOfCmd := by
  induction cs generalizing b with
  | nil => rfl
  | cons c cs ih =>
    cases c <;> simp [execCmds, execCmd, evOfCmd, ih]

theorem execCmds_finished (b : Bencher) (cs : List Cmd) :
    (execCmds b cs).1.finished = (b.finished || cs.contains Cmd.finish) := by
  induction cs generalizing b with
  | nil => simp [execCmds]
  | cons c cs ih =>
    cases c <;> simp [execCmds, execCmd, ih, List.contains_cons]

/-- A fresh handle run through a straight-line body: `runBench` unfolded to
the dispatcher over the mapped trace and the contains-finish flag. -/
theorem runBench_eq (conf : Config) (name : String) (par : Nat)
    (cmds : List Cmd) :
    runBench conf name par cmds =
      runBenchT conf name (cmds.map evOfCmd, cmds.contains Cmd.finish) := by
  simp [runBench, execCmds_trace, execCmds_finished, newBench,
    Bencher.IsFinished]

/-! ## C4: filter correctness (corrected) -/

/-- A configuration whose filter matches everything, in execution mode. -/
def confExec : Config :=
  { DatabaseDir := "bench.dir", DatabaseSize := 10000,
    BenchFilter := matchAll, ListBenches := false }

/-- A configuration whose filter matches everything, in list mode. -/
def confList : Config :=
  { DatabaseDir := "bench.dir", DatabaseSize := 10000,
    BenchFilter := matchAll, ListBenches := true }

/-- A configuration whose filter matches nothing, in execution mode. -/
def confNone : Config :=
  { DatabaseDir := "bench.dir", DatabaseSize := 10000,
    BenchFilter := fun _ => false, ListBenches := false }

/-- C4 counterexample: with list mode enabled the name matches the filter yet
the body is not executed (an event the body would emit is absent from the
dispatch trace), so "executes the body iff the pattern matches the name"
fails as stated. -/
theorem runBench_filter_iff_cex :
    confList.BenchFilter "writes" = true
  ∧ Ev.read 7 ∉ (runBenchT confList "writes" ([Ev.read 7], false)).2 := by
  constructor
  · rfl
  · simp [runBenchT, confList, matchAll]

/-- C4 amended: when the name does not match the filter, the dispatch has
zero output and zero side effects (in any mode); and provided list-only mode
is disabled, the body's effects appear in the dispatch trace iff the pattern
matches the name. -/
theorem runBench_filter_correct (conf : Config) (name : String)
    (body : List Ev × Bool) :
    (conf.BenchFilter name = false → runBenchT conf name body = ([], []))
  ∧ (conf.ListBenches = false →
      ∀ e, e ∈ body.1 →
        (e ∈ (runBenchT conf name body).2 ↔ conf.BenchFilter name = true)) := by
  constructor
  · intro hm
    simp [runBenchT, hm]
  · intro hl e he
    constructor
    · intro hmem
      by_contra hm
      rw [Bool.not_eq_true] at hm
      simp [runBenchT, hm] at hmem
    · intro hm
      simp [runBenchT, hm, hl]
      exact Or.inl he

/-- Concrete instance of amended C4: a non-matching name yields no output and
no events. -/
theorem runBench_filter_correct_w :
    runBenchT confNone "writes" ([Ev.read 7], false) = ([], []) :=
  (runBench_filter_correct confNone "writes" ([Ev.read 7], false)).1 rfl

/-! ## C5: list-only exclusivity -/

/-- C5: in list mode, a dispatched benchmark whose name matches prints
exactly the one line bearing its name, produces no events, and the result is
the same whatever the body is — the body is never invoked. -/
theorem list_only_exclusive (conf : Config) (name : String)
    (body : List Ev × Bool) (hl : conf.ListBenches = true)
    (hm : conf.BenchFilter name = true) :
    runBenchT conf name body = ([Line.nameOnly name], [])
  ∧ ∀ body2, runBenchT conf name body2 = ([Line.nameOnly name], []) := by
  constructor
  · simp [runBenchT, hl, hm]
  · intro body2
    simp [runBenchT, hl, hm]

/-- Concrete instance of C5: list mode prints only the matching name. -/
theorem list_only_exclusive_w :
    runBenchT confList "writes" ([Ev.read 7], false)
      = ([Line.nameOnly "writes"], []) :=
  (list_only_exclusive confList "writes" ([Ev.read 7], false) rfl rfl).1

/-! ## C6: single finalize -/

def isFinishCmd : Cmd → Bool
  | .finish => true
  | _ => false

theorem isFinishEv_evOfCmd (c : Cmd) :
    isFinishEv (evOfCmd c) = isFinishCmd c := by
  cases c <;> rfl

theorem isStopEv_evOfCmd (c : Cmd) : isStopEv (evOfCmd c) = false := by
  cases c <;> rfl

theorem countP_isFinishCmd_zero_iff (cmds : List Cmd) :
    cmds.countP isFinishCmd = 0 ↔ cmds.contains Cmd.finish = false := by
  induction cmds with
  | nil => simp
  | cons c t ih =>
    cases c <;>
      simp [List.countP_cons, List.contains_cons, isFinishCmd, ih]

/-- Summary lines are printed exactly at `b.finish()` events. -/
theorem filterMap_count_summary (name : String) (evs : List Ev) :
    (evs.filterMap (printedLines name)).count (Line.summary name)
      = evs.countP isFinishEv := by
  induction evs with
  | nil => rfl
  | cons e t ih =>
    cases e <;>
      simp [printedLines, isFinishEv, List.filterMap_cons, List.count_cons,
        List.countP_cons, ih]

/-- C6: for every executed benchmark whose body finishes the handle at most
once, the handle is finished exactly once — the dispatcher's implicit finish
fires iff the body did not explicitly finish — so the timing summary is
printed exactly once, and the handle is released exactly once, at the very
end. -/
theorem runBenchT_exec (conf : Config) (name : String) (body : List Ev × Bool)
    (hm : conf.BenchFilter name = true) (hl : conf.ListBenches = false) :
    runBenchT conf name body
      = ((body.1 ++ (if !body.2 then [Ev.finishB] else [])
            ++ [Ev.stopB]).filterMap (printedLines name),
         body.1 ++ (if !body.2 then [Ev.finishB] else []) ++ [Ev.stopB]) := by
  rw [runBenchT]
  simp [hm, hl]

theorem single_finalize (conf : Config) (name : String) (par : Nat)
    (cmds : List Cmd) (hm : conf.BenchFilter name = true)
    (hl : conf.ListBenches = false) (hfin : cmds.countP isFinishCmd ≤ 1) :
    (runBench conf name par cmds).2.countP isFinishEv = 1
  ∧ (runBench conf name par cmds).1.count (Line.summary name) = 1
  ∧ (runBench conf name par cmds).2.getLast? = some Ev.stopB
  ∧ (runBench conf name par cmds).2.countP isStopEv = 1 := by
  rw [runBench_eq, runBenchT_exec conf name _ hm hl]
  have hcompF : (isFinishEv ∘ evOfCmd) = isFinishCmd :=
    funext fun c => isFinishEv_evOfCmd c
  have hmapF : (cmds.map evOfCmd).countP isFinishEv = cmds.countP isFinishCmd := by
    rw [List.countP_map, hcompF]
  have hmapS : (cmds.map evOfCmd).countP isStopEv = 0 := by
    rw [List.countP_map, List.countP_eq_zero]
    intro c _
    simp [Function.comp_apply, isStopEv_evOfCmd]
  have hfin1 : (cmds.map evOfCmd
      ++ ((if !cmds.contains Cmd.finish then [Ev.finishB] else [])
      ++ [Ev.stopB])).countP isFinishEv = 1 := by
    cases hc : cmds.contains Cmd.finish with
    | false =>
      have h0 : cmds.countP isFinishCmd = 0 :=
        (countP_isFinishCmd_zero_iff cmds).2 hc
      simp [List.countP_append, hmapF, h0, isFinishEv]
    | true =>
      have h1 : cmds.countP isFinishCmd = 1 := by
        rcases Nat.lt_or_ge 0 (cmds.countP isFinishCmd) with hpos | hz
        · omega
        · exfalso
          have h0 : cmds.countP isFinishCmd = 0 := by omega
          rw [(countP_isFinishCmd_zero_iff cmds).1 h0] at hc
          exact Bool.false_ne_true hc
      simp [List.countP_append, hmapF, h1, isFinishEv]
  refine ⟨?_, ?_, ?_, ?_⟩
  · simpa using hfin1
  · simp only [Prod.fst]
    rw [filterMap_count_summary]
    simpa using hfin1
  · simp only [Prod.snd]
    exact List.getLast?_concat _
  · simp only [Prod.snd]
    cases hc : cmds.contains Cmd.finish <;>
      simp [List.countP_append, hmapS, isStopEv]

/-- Concrete instance of C6: a body that explicitly finishes once yields a
trace with exactly one finalize. -/
theorem single_finalize_w :
    (runBench confExec "x" 1 [Cmd.finish]).2.countP isFinishEv = 1 :=
  (single_finalize confExec "x" 1 [Cmd.finish] rfl rfl (by decide)).1

/-! ## C7: the sequential "writes" scenario -/

theorem range_map_const {α : Type} (n : Nat) (x : α) :
    (List.range n).map (fun _ => x) = List.replicate n x := by
  induction n with
  | zero => rfl
  | succ n ih =>
    rw [List.range_succ, List.map_append, ih, List.map_singleton,
      ← List.replicate_succ']

theorem countP_flatten_replicate {α : Type} (n : Nat) (l : List α)
    (p : α → Bool) :
    ((List.replicate n l).flatten).countP p = n * l.countP p := by
  induction n with
  | zero => simp
  | succ n ih =>
    rw [List.replicate_succ, List.flatten_cons, List.countP_append, ih,
      Nat.succ_mul]
    omega

theorem mem_flatten_replicate {α : Type} {n : Nat} {l : List α} {e : α}
    (h : e ∈ (List.replicate n l).flatten) : e ∈ l := by
  rw [List.mem_flatten] at h
  obtain ⟨l', hl', he⟩ := h
  rwa [List.eq_of_mem_replicate hl'] at he

theorem writeBlockEv_eq (n : Nat) :
    writeBlockEv n = (List.replicate n [Ev.write 0, Ev.finishOp 0]).flatten := by
  rw [writeBlockEv, range_map_const]

theorem writeBlockEv_countP_write (n : Nat) :
    (writeBlockEv n).countP isWrite = n := by
  rw [writeBlockEv_eq, countP_flatten_replicate]
  simp [isWrite]

theorem writeBlockEv_countP_finishOp (n : Nat) :
    (writeBlockEv n).countP (fun e => e == Ev.finishOp 0) = n := by
  rw [writeBlockEv_eq, countP_flatten_replicate]
  simp

theorem writeBlockEv_mem (n : Nat) (e : Ev) (h : e ∈ writeBlockEv n) :
    e = Ev.write 0 ∨ e = Ev.finishOp 0 := by
  rw [writeBlockEv_eq] at h
  simpa using mem_flatten_replicate h

theorem writeBlockEv_countP_zero (n : Nat) (p : Ev → Bool)
    (h1 : p (Ev.write 0) = false) (h2 : p (Ev.finishOp 0) = false) :
    (writeBlockEv n).countP p = 0 := by
  rw [writeBlockEv_eq, countP_flatten_replicate]
  simp [List.countP_cons, h1, h2]

theorem writesBody_trace (k : Int) :
    (writesBody k).map evOfCmd = writeBlockEv (nIters k) ++ [Ev.compact] := by
  rw [writesBody, List.map_append, List.map_flatten, List.map_map]
  rfl

theorem writesBody_contains (k : Int) :
    (writesBody k).contains Cmd.finish = false := by
  rw [← countP_isFinishCmd_zero_iff, writesBody, List.countP_append,
    range_map_const, countP_flatten_replicate]
  simp [isFinishCmd]

/-- For every iteration multiplier, the full trace of a dispatched "writes"
benchmark is the write loop, one compaction, the implicit finish, and the
release. -/
theorem writes_trace_general (conf : Config) (k : Int)
    (hm : conf.BenchFilter "writes" = true) (hl : conf.ListBenches = false) :
    (runBench conf "writes" 1 (writesBody k)).2
      = writeBlockEv (nIters k) ++ [Ev.compact, Ev.finishB, Ev.stopB] := by
  rw [runBench_eq, runBenchT_exec conf "writes" _ hm hl]
  dsimp only
  rw [writesBody_trace, writesBody_contains, List.append_assoc]
  simp

/-- C7: with `kiters = 1` the "writes" benchmark performs exactly 1000
`Write` calls, all attributed to worker id 0 and each recorded via
`finishOp`, then exactly one `Compact`, after which the dispatcher's implicit
finish closes the handle and `b.stop()` releases it. -/
theorem writes_scenario (conf : Config)
    (hm : conf.BenchFilter "writes" = true) (hl : conf.ListBenches = false) :
    (runBench conf "writes" 1 (writesBody 1)).2
      = writeBlockEv 1000 ++ [Ev.compact, Ev.finishB, Ev.stopB]
  ∧ (writeBlockEv 1000).countP isWrite = 1000
  ∧ (writeBlockEv 1000).countP (fun e => e == Ev.finishOp 0) = 1000
  ∧ (∀ e ∈ writeBlockEv 1000, e = Ev.write 0 ∨ e = Ev.finishOp 0)
  ∧ (runBench conf "writes" 1 (writesBody 1)).2.countP isFinishEv = 1
  ∧ (runBench conf "writes" 1 (writesBody 1)).2.getLast? = some Ev.stopB := by
  have hn : nIters 1 = 1000 := by decide
  have htr : (runBench conf "writes" 1 (writesBody 1)).2
      = writeBlockEv 1000 ++ [Ev.compact, Ev.finishB, Ev.stopB] := by
    rw [writes_trace_general conf 1 hm hl, hn]
  refine ⟨htr, writeBlockEv_countP_write 1000,
    writeBlockEv_countP_finishOp 1000, writeBlockEv_mem 1000, ?_, ?_⟩
  · rw [htr, List.countP_append,
      writeBlockEv_countP_zero 1000 isFinishEv rfl rfl]
    simp [isFinishEv]
  · rw [htr, show writeBlockEv 1000 ++ [Ev.compact, Ev.finishB, Ev.stopB]
        = (writeBlockEv 1000 ++ [Ev.compact, Ev.finishB]) ++ [Ev.stopB] by
      rw [List.append_assoc]; rfl]
    rw [List.getLast?_concat]

/-- Concrete instance of C7 under the default (match-all) configuration. -/
theorem writes_scenario_w :
    (runBench confExec "writes" 1 (writesBody 1)).2
      = writeBlockEv 1000 ++ [Ev.compact, Ev.finishB, Ev.stopB] :=
  (writes_scenario confExec rfl rfl).1

/-! ## Interleaving lemmas -/

theorem get?_set_self {α : Type} :
    ∀ (ls : List α) (i : Nat) (a b : α), ls.get? i = some b →
      (ls.set i a).get? i = some a := by
  intro ls
  induction ls with
  | nil => intro i a b h; simp at h
  | cons hd tl ih =>
    intro i a b h
    cases i with
    | zero => rfl
    | succ i => exact ih i a b h

theorem get?_set_other {α : Type} :
    ∀ (ls : List α) (i j : Nat) (a : α), i ≠ j →
      (ls.set i a).get? j = ls.get? j := by
  intro ls
  induction ls with
  | nil => intro i j a _; simp
  | cons hd tl ih =>
    intro i j a hij
    cases i with
    | zero =>
      cases j with
      | zero => exact absurd rfl hij
      | succ j => rfl
    | succ i =>
      cases j with
      | zero => rfl
      | succ j => exact ih i j a (fun h => hij (congrArg Nat.succ h))

theorem mem_of_mem_set {α : Type} :
    ∀ (ls : List α) (i : Nat) (a x : α), x ∈ ls.set i a →
      x = a ∨ x ∈ ls := by
  intro ls
  induction ls with
  | nil => intro i a x h; simp at h
  | cons hd tl ih =>
    intro i a x h
    cases i with
    | zero =>
      rcases List.mem_cons.1 h with h | h
      · exact Or.inl h
      · exact Or.inr (List.mem_cons_of_mem hd h)
    | succ i =>
      rcases List.mem_cons.1 h with h | h
      · exact Or.inr (h ▸ List.mem_cons_self hd tl)
      · rcases ih i a x h with h | h
        · exact Or.inl h
        · exact Or.inr (List.mem_cons_of_mem hd h)

theorem flatten_perm_set :
    ∀ (ls : List (List Ev)) (i : Nat) (e : Ev) (rest : List Ev),
      ls.get? i = some (e :: rest) →
      List.Perm ls.flatten (e :: (ls.set i rest).flatten) := by
  intro ls
  induction ls with
  | nil => intro i e rest h; simp at h
  | cons hd tl ih =>
    intro i e rest h
    cases i with
    | zero =>
      simp only [List.get?] at h
      injection h with h
      subst h
      simp only [List.set, List.flatten_cons, List.cons_append]
      exact List.Perm.refl _
    | succ i =>
      simp only [List.get?] at h
      have hperm := ih i e rest h
      simp only [List.set, List.flatten_cons]
      exact (hperm.append_left hd).trans List.perm_middle

/-- Every interleaving is a permutation of the concatenation of the
goroutines' event sequences. -/
theorem interleave_perm (sched : List Nat) :
    ∀ ls : List (List Ev), List.Perm (interleave ls sched) ls.flatten := by
  induction sched with
  | nil => intro ls; exact List.Perm.refl _
  | cons i s ih =>
    intro ls
    cases h : ls.get? i with
    | none =>
      show List.Perm (interleave ls (i :: s)) ls.flatten
      simp only [interleave, h]
      exact ih ls
    | some l =>
      cases l with
      | nil =>
        show List.Perm (interleave ls (i :: s)) ls.flatten
        simp only [interleave, h]
        exact ih ls
      | cons e rest =>
        show List.Perm (interleave ls (i :: s)) ls.flatten
        simp only [interleave, h]
        exact ((ih (ls.set i rest)).cons e).trans (flatten_perm_set ls i e rest h).symm

theorem interleave_countP (p : Ev → Bool) (ls : List (List Ev))
    (sched : List Nat) :
    (interleave ls sched).countP p = ls.flatten.countP p :=
  (interleave_perm sched ls).countP_eq p

theorem sublist_flatten_of_mem {l : List Ev} :
    ∀ {ls : List (List Ev)}, l ∈ ls → List.Sublist l ls.flatten := by
  intro ls
  induction ls with
  | nil => intro h; simp at h
  | cons hd tl ih =>
    intro h
    rcases List.mem_cons.1 h with h | h
    · subst h
      exact List.sublist_append_left l tl.flatten
    · exact (ih h).trans (List.sublist_append_right hd tl.flatten)

/-- Each goroutine's own event sequence survives, in order, as a subsequence
of any interleaving. -/
theorem interleave_sublist (sched : List Nat) :
    ∀ (ls : List (List Ev)) (j : Nat) (l : List Ev), ls.get? j = some l →
      List.Sublist l (interleave ls sched) := by
  induction sched with
  | nil =>
    intro ls j l h
    exact sublist_flatten_of_mem (List.get?_mem h)
  | cons i s ih =>
    intro ls j l h
    cases hi : ls.get? i with
    | none =>
      show List.Sublist l (interleave ls (i :: s))
      simp only [interleave, hi]
      exact ih ls j l h
    | some li =>
      cases li with
      | nil =>
        show List.Sublist l (interleave ls (i :: s))
        simp only [interleave, hi]
        exact ih ls j l h
      | cons e rest =>
        show List.Sublist l (interleave ls (i :: s))
        simp only [interleave, hi]
        by_cases hji : j = i
        · subst hji
          rw [h] at hi
          injection hi with hi
          subst hi
          exact List.Sublist.cons₂ e
            (ih (ls.set j rest) j rest (get?_set_self ls j rest _ h))
        · exact List.Sublist.cons e
            (ih (ls.set i rest) j l
              (by rw [get?_set_other ls i j rest (fun hh => hji hh.symm)]; exact h))

/-- An event sequence "ends with a completion signal". -/
def EndsDone (l : List Ev) : Prop := ∃ t, l.getLast? = some (Ev.done t)

theorem flatten_endsDone :
    ∀ ls : List (List Ev), (∀ l ∈ ls, l = [] ∨ EndsDone l) →
      ls.flatten = [] ∨ EndsDone ls.flatten := by
  intro ls
  induction ls with
  | nil => intro _; exact Or.inl rfl
  | cons hd tl ih =>
    intro h
    rcases ih (fun l hl => h l (List.mem_cons_of_mem hd hl)) with htl | htl
    · rcases h hd (List.mem_cons_self hd tl) with hhd | hhd
      · subst hhd
        rw [List.flatten_cons, htl]
        exact Or.inl rfl
      · rw [List.flatten_cons, htl, List.append_nil]
        exact Or.inr hhd
    · obtain ⟨t, ht⟩ := htl
      refine Or.inr ⟨t, ?_⟩
      rw [List.flatten_cons, List.getLast?_append_of_ne_nil, ht]
      intro hnil
      rw [hnil] at ht
      simp at ht

theorem interleave_endsDone (sched : List Nat) :
    ∀ ls : List (List Ev), (∀ l ∈ ls, l = [] ∨ EndsDone l) →
      interleave ls sched = [] ∨ EndsDone (interleave ls sched) := by
  induction sched with
  | nil => intro ls h; exact flatten_endsDone ls h
  | cons i s ih =>
    intro ls h
    cases hi : ls.get? i with
    | none =>
      show interleave ls (i :: s) = [] ∨ EndsDone (interleave ls (i :: s))
      simp only [interleave, hi]
      exact ih ls h
    | some li =>
      cases li with
      | nil =>
        show interleave ls (i :: s) = [] ∨ EndsDone (interleave ls (i :: s))
        simp only [interleave, hi]
        exact ih ls h
      | cons e rest =>
        show interleave ls (i :: s) = [] ∨ EndsDone (interleave ls (i :: s))
        simp only [interleave, hi]
        refine Or.inr ?_
        have hset : ∀ l ∈ ls.set i rest, l = [] ∨ EndsDone l := by
          intro l hl
          rcases mem_of_mem_set ls i rest l hl with hleq | hl
          · rw [hleq]
            cases rest with
            | nil => exact Or.inl rfl
            | cons x xs =>
              rcases h (e :: x :: xs) (List.get?_mem hi) with hc | hc
              · exact absurd hc (by simp)
              · obtain ⟨t, ht⟩ := hc
                rw [List.getLast?_cons_cons] at ht
                exact Or.inr ⟨t, ht⟩
          · exact h l hl
        rcases ih (ls.set i rest) hset with hnil | hdone
        · -- the tail is empty: the emitted event is the last of its worker
          rw [hnil]
          have hflat : (ls.set i rest).flatten = [] := by
            have := interleave_perm s (ls.set i rest)
            rw [hnil] at this
            exact (this.symm.eq_nil)
          have hrest : rest = [] := by
            have hmem : rest ∈ ls.set i rest :=
              List.get?_mem (get?_set_self ls i rest _ hi)
            by_contra hne
            have : rest ≠ [] → rest.length ≠ 0 := by
              intro h1 h2
              exact h1 (List.length_eq_zero.1 h2)
            have hlen := List.flatten_eq_nil_iff.1 hflat
            exact hne (hlen rest hmem)
          subst hrest
          rcases h [e] (List.get?_mem hi) with hc | hc
          · exact absurd hc (by simp)
          · exact hc
        · obtain ⟨t, ht⟩ := hdone
          refine ⟨t, ?_⟩
          cases hcase : interleave (ls.set i rest) s with
          | nil => rw [hcase] at ht; simp at ht
          | cons y ys =>
            rw [hcase] at ht
            rw [List.getLast?_cons_cons, ht]

/-! ## C3: fan-out join completeness -/

theorem workerEvs_eq (iters tid : Nat) :
    workerEvs iters tid
      = (List.replicate iters [Ev.read tid, Ev.finishOp tid]).flatten
        ++ [Ev.done tid] := by
  rw [workerEvs, range_map_const]

theorem sum_replicate_nat (n x : Nat) : (List.replicate n x).sum = n * x := by
  induction n with
  | zero => simp
  | succ n ih =>
    rw [List.replicate_succ, List.sum_cons, ih]
    ring

theorem countP_flatten_eq {α : Type} (p : α → Bool) :
    ∀ ls : List (List α),
      ls.flatten.countP p = (ls.map (fun l => l.countP p)).sum := by
  intro ls
  induction ls with
  | nil => simp
  | cons hd tl ih => simp [List.countP_append, ih]

theorem workerEvs_countP_belongs (iters tid j : Nat) :
    (workerEvs iters j).countP (belongs tid)
      = if j = tid then 2 * iters + 1 else 0 := by
  rw [workerEvs_eq, List.countP_append, countP_flatten_replicate]
  by_cases h : j = tid
  · subst h
    simp only [if_pos rfl]
    simp [List.countP_cons, belongs, evTid]
    ring
  · simp [List.countP_cons, belongs, evTid, h]

theorem workerEvs_filter_self (iters tid : Nat) :
    (workerEvs iters tid).filter (belongs tid) = workerEvs iters tid := by
  rw [List.filter_eq_self]
  intro e he
  rw [workerEvs_eq] at he
  rcases List.mem_append.1 he with he | he
  · have h2 := mem_flatten_replicate he
    simp only [List.mem_cons, List.mem_singleton] at h2
    rcases h2 with rfl | h2
    · simp [belongs, evTid]
    · simp only [List.not_mem_nil, or_false] at h2
      subst h2
      simp [belongs, evTid]
  · simp only [List.mem_singleton] at he
    subst he
    simp [belongs, evTid]

theorem workerEvs_length (iters tid : Nat) :
    (workerEvs iters tid).length = 2 * iters + 1 := by
  rw [workerEvs_eq, List.length_append, List.length_flatten,
    List.map_replicate]
  simp [sum_replicate_nat]
  ring

theorem workerEvs_countP_isDone (iters tid : Nat) :
    (workerEvs iters tid).countP isDone = 1 := by
  rw [workerEvs_eq, List.countP_append, countP_flatten_replicate]
  simp [isDone, List.countP_cons]

theorem workerEvs_countP_doneTid (iters tid j : Nat) :
    (workerEvs iters j).countP (fun e => decide (e = Ev.done tid))
      = if j = tid then 1 else 0 := by
  rw [workerEvs_eq, List.countP_append, countP_flatten_replicate]
  by_cases h : j = tid
  · subst h
    simp [List.countP_cons]
  · simp [List.countP_cons, h]

theorem workerEvs_endsDone (iters tid : Nat) : EndsDone (workerEvs iters tid) := by
  refine ⟨tid, ?_⟩
  rw [workerEvs_eq, List.getLast?_concat]

theorem spawnWorkers_get? (par iters tid : Nat) (h : tid < par) :
    (spawnWorkers par iters).get? tid = some (workerEvs iters tid) := by
  rw [spawnWorkers, List.get?_map, List.get?_range h]
  rfl

theorem sum_map_range_ite (v : Nat) :
    ∀ (par tid : Nat), tid < par →
      ((List.range par).map (fun j => if j = tid then v else 0)).sum = v := by
  intro par
  induction par with
  | zero => intro tid h; omega
  | succ p ih =>
    intro tid h
    rw [List.range_succ, List.map_append, List.sum_append]
    by_cases htid : tid = p
    · subst htid
      have hz : ((List.range tid).map
          (fun j => if j = tid then v else 0)).sum = 0 := by
        apply List.sum_eq_zero
        intro x hx
        rcases List.mem_map.1 hx with ⟨j, hj, hxe⟩
        have hjlt : j < tid := List.mem_range.1 hj
        rw [← hxe]
        simp [Nat.ne_of_lt hjlt]
      rw [hz]
      simp
    · have hlt : tid < p := by omega
      rw [ih tid hlt]
      have hp : p ≠ tid := fun hh => htid hh.symm
      simp [hp]

theorem spawn_countP_belongs (par iters tid : Nat) (h : tid < par) :
    ((spawnWorkers par iters).flatten).countP (belongs tid)
      = 2 * iters + 1 := by
  rw [countP_flatten_eq, spawnWorkers, List.map_map]
  have hcong : (List.range par).map
        ((fun l => l.countP (belongs tid)) ∘ workerEvs iters)
      = (List.range par).map (fun j => if j = tid then 2 * iters + 1 else 0) :=
    List.map_congr_left fun j _ => workerEvs_countP_belongs iters tid j
  rw [hcong, sum_map_range_ite (2 * iters + 1) par tid h]

theorem spawn_countP_isDone (par iters : Nat) :
    ((spawnWorkers par iters).flatten).countP isDone = par := by
  rw [countP_flatten_eq, spawnWorkers, List.map_map]
  have hcong : (List.range par).map
        ((fun l => l.countP isDone) ∘ workerEvs iters)
      = (List.range par).map (fun _ => 1) :=
    List.map_congr_left fun j _ => workerEvs_countP_isDone iters j
  rw [hcong, range_map_const]
  rw [sum_replicate_nat]
  ring

theorem spawn_countP_doneTid (par iters tid : Nat) (h : tid < par) :
    ((spawnWorkers par iters).flatten).countP
      (fun e => decide (e = Ev.done tid)) = 1 := by
  rw [countP_flatten_eq, spawnWorkers, List.map_map]
  have hcong : (List.range par).map
        ((fun l => l.countP (fun e => decide (e = Ev.done tid)))
          ∘ workerEvs iters)
      = (List.range par).map (fun j => if j = tid then 1 else 0) :=
    List.map_congr_left fun j _ => workerEvs_countP_doneTid iters tid j
  rw [hcong, sum_map_range_ite 1 par tid h]

/-- C3: the fan-out spawns exactly `par` workers with distinct worker ids
`0, ..., par-1`; in any complete execution of the fan-out region exactly
`par` completion signals occur; each worker's events appear in program order
— its `iters` iterations of `Read`/`finishOp`, then its single completion
signal (this is the filter equation: the events attributed to worker `tid`
are exactly `workerEvs iters tid`) — each signal occurs exactly once, and
the region ends with a completion signal, so the join (which consumes all
`par` signals) returns only after every worker has fully finished. -/
theorem fanout_join (par iters : Nat) (sched : List Nat) (hpar : 1 ≤ par) :
    (spawnWorkers par iters).length = par
  ∧ (List.range par).Nodup
  ∧ (∀ tid ∈ List.range par, tid < par)
  ∧ (interleave (spawnWorkers par iters) sched).countP isDone = par
  ∧ (∀ tid, tid < par →
      (interleave (spawnWorkers par iters) sched).filter (belongs tid)
        = workerEvs iters tid)
  ∧ (∀ tid, tid < par →
      (interleave (spawnWorkers par iters) sched).countP
        (fun e => decide (e = Ev.done tid)) = 1)
  ∧ EndsDone (interleave (spawnWorkers par iters) sched) := by
  have hdone : (interleave (spawnWorkers par iters) sched).countP isDone
      = par := by
    rw [interleave_countP, spawn_countP_isDone]
  refine ⟨by simp [spawnWorkers], List.nodup_range par,
    fun tid h => List.mem_range.1 h, hdone, ?_, ?_, ?_⟩
  · intro tid h
    have hsub := interleave_sublist sched (spawnWorkers par iters) tid
      (workerEvs iters tid) (spawnWorkers_get? par iters tid h)
    have hfsub := hsub.filter (belongs tid)
    rw [workerEvs_filter_self] at hfsub
    refine (hfsub.eq_of_length ?_).symm
    rw [workerEvs_length, ← List.countP_eq_length_filter,
      interleave_countP, spawn_countP_belongs par iters tid h]
  · intro tid h
    rw [interleave_countP, spawn_countP_doneTid par iters tid h]
  · have hall : ∀ l ∈ spawnWorkers par iters, l = [] ∨ EndsDone l := by
      intro l hl
      rcases List.mem_map.1 hl with ⟨j, _, hje⟩
      exact Or.inr (hje ▸ workerEvs_endsDone iters j)
    rcases interleave_endsDone sched (spawnWorkers par iters) hall with hnil | hed
    · exfalso
      rw [hnil] at hdone
      simp at hdone
      omega
    · exact hed

/-- Concrete instance of C3: one worker, zero iterations, the drain
schedule. -/
theorem fanout_join_w :
    (interleave (spawnWorkers 1 0) []).countP isDone = 1 :=
  (fanout_join 1 0 [] (by decide)).2.2.2.1

/-! ## C2: execution order inside the daemon benchmarks -/

theorem countP_replicate_ev {α : Type} (n : Nat) (a : α) (p : α → Bool) :
    (List.replicate n a).countP p = if p a then n else 0 := by
  induction n with
  | zero => simp
  | succ n ih =>
    rw [List.replicate_succ, List.countP_cons, ih]
    by_cases h : p a <;> simp [h]

theorem spawn_countP_zero (par iters : Nat) (p : Ev → Bool)
    (h1 : ∀ t, p (Ev.read t) = false) (h2 : ∀ t, p (Ev.finishOp t) = false)
    (h3 : ∀ t, p (Ev.done t) = false) :
    ((spawnWorkers par iters).flatten).countP p = 0 := by
  rw [countP_flatten_eq, spawnWorkers, List.map_map]
  apply List.sum_eq_zero
  intro x hx
  rcases List.mem_map.1 hx with ⟨j, _, hxe⟩
  rw [← hxe]
  show (workerEvs iters j).countP p = 0
  rw [workerEvs_eq, List.countP_append, countP_flatten_replicate]
  simp [List.countP_cons, h1, h2, h3]

/-- Event counts in the concurrent phase of "write + compact". -/
theorem wcMix_countP (k : Int) (pre : Nat) (sched : List Nat) (p : Ev → Bool) :
    (interleave [writeBlockEv (nIters k), List.replicate pre Ev.dcompact]
        sched).countP p
      = (writeBlockEv (nIters k)).countP p + (if p Ev.dcompact then pre else 0) := by
  rw [interleave_countP]
  simp [List.flatten_cons, List.flatten_nil, List.countP_append,
    countP_replicate_ev]

/-- Event counts in the concurrent phase of "read par + compact". -/
theorem rpMix_countP (par : Nat) (k : Int) (pre : Nat) (sched : List Nat)
    (p : Ev → Bool) :
    (interleave (spawnWorkers par (nIters k)
        ++ [List.replicate pre Ev.dcompact]) sched).countP p
      = ((spawnWorkers par (nIters k)).flatten).countP p
        + (if p Ev.dcompact then pre else 0) := by
  rw [interleave_countP, List.flatten_append]
  simp [List.flatten_cons, List.flatten_nil, List.countP_append,
    countP_replicate_ev]

/-- C2 counterexample: in a concrete execution of the "write + compact"
benchmark both the explicit finish and the daemon stop handshake occur, but
the handshake does not precede the finish — the body calls `b.finish()`
before performing the stop receive, so "daemon stop precedes the finish"
fails as stated. -/
theorem daemon_stop_before_finish_cex :
    Ev.finishB ∈ (runBenchT confExec "write + compact"
        (writeCompactBody 0 0 0 [], true)).2
  ∧ Ev.handshake 0 ∈ (runBenchT confExec "write + compact"
        (writeCompactBody 0 0 0 [], true)).2
  ∧ ¬ ((runBenchT confExec "write + compact"
          (writeCompactBody 0 0 0 [], true)).2.indexOf (Ev.handshake 0)
        < (runBenchT confExec "write + compact"
            (writeCompactBody 0 0 0 [], true)).2.indexOf Ev.finishB) := by
  decide

/-- C2 amended: within the two daemon benchmarks the strict order is:
setup, then daemon start, then the concurrent work phase (worker fan-out and
join, during which no finish, handshake or release occurs), then the body's
explicit finish, then the daemon wind-down and the stop handshake, then the
handle release, which is last; the dispatcher adds no second finish (the
finish occurs exactly once, and it precedes the handshake, which is the
swap relative to the claimed order). -/
theorem daemon_bench_order (conf : Config) (k : Int) (pre post : Nat)
    (dsched : List Nat) (par rpre rpost : Nat) (rsched : List Nat)
    (hm1 : conf.BenchFilter "write + compact" = true)
    (hm2 : conf.BenchFilter (readParCompactName par) = true)
    (hl : conf.ListBenches = false) :
    (runBenchT conf "write + compact"
        (writeCompactBody k pre post dsched, true)).2
      = writeCompactBody k pre post dsched ++ [Ev.stopB]
  ∧ (writeCompactBody k pre post dsched).take 3
      = [Ev.fill, Ev.reset, Ev.dstart]
  ∧ (interleave [writeBlockEv (nIters k), List.replicate pre Ev.dcompact]
        dsched).countP isFinishEv = 0
  ∧ (interleave [writeBlockEv (nIters k), List.replicate pre Ev.dcompact]
        dsched).countP isHandshakeEv = 0
  ∧ (writeCompactBody k pre post dsched ++ [Ev.stopB]).drop
        (3 + (interleave [writeBlockEv (nIters k),
                List.replicate pre Ev.dcompact] dsched).length)
      = Ev.finishB :: (List.replicate post Ev.dcompact
          ++ [Ev.handshake (pre + post), Ev.stopB])
  ∧ (writeCompactBody k pre post dsched ++ [Ev.stopB]).countP isFinishEv = 1
  ∧ (writeCompactBody k pre post dsched ++ [Ev.stopB]).countP isHandshakeEv = 1
  ∧ (writeCompactBody k pre post dsched ++ [Ev.stopB]).getLast? = some Ev.stopB
  ∧ (runBenchT conf (readParCompactName par)
        (readParCompactBody par k rpre rpost rsched, true)).2
      = readParCompactBody par k rpre rpost rsched ++ [Ev.stopB]
  ∧ (readParCompactBody par k rpre rpost rsched).take 4
      = [Ev.fill, Ev.compact, Ev.reset, Ev.dstart]
  ∧ (interleave (spawnWorkers par (nIters k)
        ++ [List.replicate rpre Ev.dcompact]) rsched).countP isFinishEv = 0
  ∧ (interleave (spawnWorkers par (nIters k)
        ++ [List.replicate rpre Ev.dcompact]) rsched).countP isHandshakeEv = 0
  ∧ (readParCompactBody par k rpre rpost rsched ++ [Ev.stopB]).drop
        (4 + (interleave (spawnWorkers par (nIters k)
                ++ [List.replicate rpre Ev.dcompact]) rsched).length)
      = Ev.finishB :: (List.replicate rpost Ev.dcompact
          ++ [Ev.handshake (rpre + rpost), Ev.stopB])
  ∧ (readParCompactBody par k rpre rpost rsched ++ [Ev.stopB]).countP
        isFinishEv = 1
  ∧ (readParCompactBody par k rpre rpost rsched ++ [Ev.stopB]).countP
        isHandshakeEv = 1
  ∧ (readParCompactBody par k rpre rpost rsched ++ [Ev.stopB]).getLast?
      = some Ev.stopB := by
  have hwcF : (interleave [writeBlockEv (nIters k),
      List.replicate pre Ev.dcompact] dsched).countP isFinishEv = 0 := by
    rw [wcMix_countP, writeBlockEv_countP_zero _ isFinishEv rfl rfl]
    simp [isFinishEv]
  have hwcH : (interleave [writeBlockEv (nIters k),
      List.replicate pre Ev.dcompact] dsched).countP isHandshakeEv = 0 := by
    rw [wcMix_countP, writeBlockEv_countP_zero _ isHandshakeEv rfl rfl]
    simp [isHandshakeEv]
  have hrpF : (interleave (spawnWorkers par (nIters k)
      ++ [List.replicate rpre Ev.dcompact]) rsched).countP isFinishEv = 0 := by
    rw [rpMix_countP,
      spawn_countP_zero par (nIters k) isFinishEv (fun _ => rfl)
        (fun _ => rfl) (fun _ => rfl)]
    simp [isFinishEv]
  have hrpH : (interleave (spawnWorkers par (nIters k)
      ++ [List.replicate rpre Ev.dcompact]) rsched).countP isHandshakeEv = 0 := by
    rw [rpMix_countP,
      spawn_countP_zero par (nIters k) isHandshakeEv (fun _ => rfl)
        (fun _ => rfl) (fun _ => rfl)]
    simp [isHandshakeEv]
  have hwcShape : writeCompactBody k pre post dsched ++ [Ev.stopB]
      = ([Ev.fill, Ev.reset, Ev.dstart]
          ++ interleave [writeBlockEv (nIters k),
              List.replicate pre Ev.dcompact] dsched)
        ++ (Ev.finishB :: (List.replicate post Ev.dcompact
            ++ [Ev.handshake (pre + post), Ev.stopB])) := by
    rw [writeCompactBody]
    simp
  have hrpShape : readParCompactBody par k rpre rpost rsched ++ [Ev.stopB]
      = ([Ev.fill, Ev.compact, Ev.reset, Ev.dstart]
          ++ interleave (spawnWorkers par (nIters k)
              ++ [List.replicate rpre Ev.dcompact]) rsched)
        ++ (Ev.finishB :: (List.replicate rpost Ev.dcompact
            ++ [Ev.handshake (rpre + rpost), Ev.stopB])) := by
    rw [readParCompactBody]
    simp
  refine ⟨?_, ?_, hwcF, hwcH, ?_, ?_, ?_, ?_, ?_, ?_, hrpF, hrpH, ?_, ?_, ?_, ?_⟩
  · rw [runBenchT_exec conf _ _ hm1 hl]
    simp
  · rw [writeCompactBody]
    rfl
  · rw [hwcShape]
    have hlen : ([Ev.fill, Ev.reset, Ev.dstart]
        ++ interleave [writeBlockEv (nIters k),
            List.replicate pre Ev.dcompact] dsched).length
        = 3 + (interleave [writeBlockEv (nIters k),
            List.replicate pre Ev.dcompact] dsched).length := by
      simp
      omega
    rw [← hlen, List.drop_left]
  · rw [hwcShape]
    simp [List.countP_append, List.countP_cons, hwcF, countP_replicate_ev,
      isFinishEv]
  · rw [hwcShape]
    simp [List.countP_append, List.countP_cons, hwcH, countP_replicate_ev,
      isHandshakeEv]
  · rw [hwcShape]
    have : ([Ev.fill, Ev.reset, Ev.dstart]
        ++ interleave [writeBlockEv (nIters k),
            List.replicate pre Ev.dcompact] dsched)
        ++ (Ev.finishB :: (List.replicate post Ev.dcompact
            ++ [Ev.handshake (pre + post), Ev.stopB]))
        = (([Ev.fill, Ev.reset, Ev.dstart]
            ++ interleave [writeBlockEv (nIters k),
                List.replicate pre Ev.dcompact] dsched)
          ++ (Ev.finishB :: (List.replicate post Ev.dcompact
              ++ [Ev.handshake (pre + post)]))) ++ [Ev.stopB] := by
      simp
    rw [this, List.getLast?_concat]
  · rw [runBenchT_exec conf _ _ hm2 hl]
    simp
  · rw [readParCompactBody]
    rfl
  · rw [hrpShape]
    have hlen : ([Ev.fill, Ev.compact, Ev.reset, Ev.dstart]
        ++ interleave (spawnWorkers par (nIters k)
            ++ [List.replicate rpre Ev.dcompact]) rsched).length
        = 4 + (interleave (spawnWorkers par (nIters k)
            ++ [List.replicate rpre Ev.dcompact]) rsched).length := by
      simp
      omega
    rw [← hlen, List.drop_left]
  · rw [hrpShape]
    simp [List.countP_append, List.countP_cons, hrpF, countP_replicate_ev,
      isFinishEv]
  · rw [hrpShape]
    simp [List.countP_append, List.countP_cons, hrpH, countP_replicate_ev,
      isHandshakeEv]
  · rw [hrpShape]
    have : ([Ev.fill, Ev.compact, Ev.reset, Ev.dstart]
        ++ interleave (spawnWorkers par (nIters k)
            ++ [List.replicate rpre Ev.dcompact]) rsched)
        ++ (Ev.finishB :: (List.replicate rpost Ev.dcompact
            ++ [Ev.handshake (rpre + rpost), Ev.stopB]))
        = (([Ev.fill, Ev.compact, Ev.reset, Ev.dstart]
            ++ interleave (spawnWorkers par (nIters k)
                ++ [List.replicate rpre Ev.dcompact]) rsched)
          ++ (Ev.finishB :: (List.replicate rpost Ev.dcompact
              ++ [Ev.handshake (rpre + rpost)]))) ++ [Ev.stopB] := by
      simp
    rw [this, List.getLast?_concat]

/-- Concrete instance of amended C2: the dispatcher releases the handle right
after the body (which already finished explicitly). -/
theorem daemon_bench_order_w :
    (runBenchT confExec "write + compact"
        (writeCompactBody 0 0 0 [], true)).2
      = writeCompactBody 0 0 0 [] ++ [Ev.stopB] :=
  (daemon_bench_order confExec 0 0 0 [] 1 0 0 [] rfl rfl rfl).1

/-! ## C10: non-positive iteration multipliers -/

theorem workerEvs_countP_isRead (iters tid : Nat) :
    (workerEvs iters tid).countP isRead = iters := by
  rw [workerEvs_eq, List.countP_append, countP_flatten_replicate]
  simp [List.countP_cons, isRead]

theorem spawn_countP_isRead (par iters : Nat) :
    ((spawnWorkers par iters).flatten).countP isRead = par * iters := by
  rw [countP_flatten_eq, spawnWorkers, List.map_map]
  have hcong : (List.range par).map
        ((fun l => l.countP isRead) ∘ workerEvs iters)
      = (List.range par).map (fun _ => iters) :=
    List.map_congr_left fun j _ => workerEvs_countP_isRead iters j
  rw [hcong, range_map_const, sum_replicate_nat]

/-- The write loop of "write + compact" contributes exactly the wrapped
iteration count of `Write` events. -/
theorem wcBody_countP_isWrite (k : Int) (pre post : Nat) (s : List Nat) :
    (writeCompactBody k pre post s).countP isWrite = nIters k := by
  have hmix := wcMix_countP k pre s isWrite
  rw [writeBlockEv_countP_write] at hmix
  rw [writeCompactBody, List.countP_append, List.countP_append,
    List.countP_append, List.countP_append, hmix, countP_replicate_ev]
  simp [isWrite, List.countP_cons]

/-- The "write + compact" body contains exactly its one explicit finish. -/
theorem wcBody_countP_isFinishEv (k : Int) (pre post : Nat) (s : List Nat) :
    (writeCompactBody k pre post s).countP isFinishEv = 1 := by
  have hmix := wcMix_countP k pre s isFinishEv
  rw [writeBlockEv_countP_zero _ isFinishEv rfl rfl] at hmix
  rw [writeCompactBody, List.countP_append, List.countP_append,
    List.countP_append, List.countP_append, hmix, countP_replicate_ev]
  simp [isFinishEv, List.countP_cons]

/-- The read workers of "read par + compact" contribute exactly
`par * nIters k` reads. -/
theorem rpBody_countP_isRead (par : Nat) (k : Int) (pre post : Nat)
    (s : List Nat) :
    (readParCompactBody par k pre post s).countP isRead = par * nIters k := by
  have hmix := rpMix_countP par k pre s isRead
  rw [spawn_countP_isRead] at hmix
  rw [readParCompactBody, List.countP_append, List.countP_append,
    List.countP_append, List.countP_append, hmix, countP_replicate_ev]
  simp [isRead, List.countP_cons]

/-- The "read par + compact" body contains exactly its one explicit finish. -/
theorem rpBody_countP_isFinishEv (par : Nat) (k : Int) (pre post : Nat)
    (s : List Nat) :
    (readParCompactBody par k pre post s).countP isFinishEv = 1 := by
  have hmix := rpMix_countP par k pre s isFinishEv
  rw [spawn_countP_zero par (nIters k) isFinishEv (fun _ => rfl)
    (fun _ => rfl) (fun _ => rfl)] at hmix
  rw [readParCompactBody, List.countP_append, List.countP_append,
    List.countP_append, List.countP_append, hmix, countP_replicate_ev]
  simp [isFinishEv, List.countP_cons]

theorem trParBody_countP_isRead (par : Nat) (k : Int) (s : List Nat) :
    (tableReadsParBody par k s).countP isRead = par * nIters k := by
  rw [tableReadsParBody, List.countP_append, interleave_countP,
    spawn_countP_isRead]
  simp [isRead, List.countP_cons]

theorem trParBody_countP_isFinishEv (par : Nat) (k : Int) (s : List Nat) :
    (tableReadsParBody par k s).countP isFinishEv = 0 := by
  rw [tableReadsParBody, List.countP_append, interleave_countP,
    spawn_countP_zero par (nIters k) isFinishEv (fun _ => rfl)
      (fun _ => rfl) (fun _ => rfl)]
  simp [isFinishEv, List.countP_cons]

theorem rrParBody_countP_isRead (par : Nat) (k : Int) (s : List Nat) :
    (rbufReadsParBody par k s).countP isRead = par * nIters k := by
  rw [rbufReadsParBody, List.countP_append, interleave_countP,
    spawn_countP_isRead]
  simp [isRead, List.countP_cons]

theorem rrParBody_countP_isFinishEv (par : Nat) (k : Int) (s : List Nat) :
    (rbufReadsParBody par k s).countP isFinishEv = 0 := by
  rw [rbufReadsParBody, List.countP_append, interleave_countP,
    spawn_countP_zero par (nIters k) isFinishEv (fun _ => rfl)
      (fun _ => rfl) (fun _ => rfl)]
  simp [isFinishEv, List.countP_cons]

theorem wcRun_trace (conf : Config) (k : Int) (pre post : Nat)
    (s : List Nat) (hm : conf.BenchFilter "write + compact" = true)
    (hl : conf.ListBenches = false) :
    (runBenchT conf "write + compact" (writeCompactBody k pre post s, true)).2
      = writeCompactBody k pre post s ++ [Ev.stopB] := by
  rw [runBenchT_exec conf _ _ hm hl]
  simp

theorem rpRun_trace (conf : Config) (par : Nat) (k : Int) (pre post : Nat)
    (s : List Nat) (hm : conf.BenchFilter (readParCompactName par) = true)
    (hl : conf.ListBenches = false) :
    (runBenchT conf (readParCompactName par)
        (readParCompactBody par k pre post s, true)).2
      = readParCompactBody par k pre post s ++ [Ev.stopB] := by
  rw [runBenchT_exec conf _ _ hm hl]
  simp

theorem trRun_trace (conf : Config) (par : Nat) (k : Int) (s : List Nat)
    (hm : conf.BenchFilter (tableReadsParName par) = true)
    (hl : conf.ListBenches = false) :
    (runBenchT conf (tableReadsParName par)
        (tableReadsParBody par k s, false)).2
      = tableReadsParBody par k s ++ [Ev.finishB, Ev.stopB] := by
  rw [runBenchT_exec conf _ _ hm hl]
  simp

theorem rrRun_trace (conf : Config) (par : Nat) (k : Int) (s : List Nat)
    (hm : conf.BenchFilter (rbufReadsParName par) = true)
    (hl : conf.ListBenches = false) :
    (runBenchT conf (rbufReadsParName par)
        (rbufReadsParBody par k s, false)).2
      = rbufReadsParBody par k s ++ [Ev.finishB, Ev.stopB] := by
  rw [runBenchT_exec conf _ _ hm hl]
  simp

/-- C10 counterexample: the multiplier `-(2^63-1)` is a legal non-positive
Go `int`, yet the wrapping 64-bit multiplication makes `1000*kiters` equal
`1000`, so the executed "writes" benchmark performs 1000 `Write` calls —
refuting "zero Write operations for every kiters ≤ 0". -/
theorem kiters_wrap_cex :
    ((-(2 ^ 63 - 1) : Int) ≤ 0)
  ∧ nIters (-(2 ^ 63 - 1)) = 1000
  ∧ (runBench confExec "writes" 1
      (writesBody (-(2 ^ 63 - 1)))).2.countP isWrite = 1000 := by
  refine ⟨by decide, by decide, ?_⟩
  rw [writes_trace_general confExec _ rfl rfl, List.countP_append,
    writeBlockEv_countP_write,
    show nIters (-(2 ^ 63 - 1)) = 1000 from by decide]
  simp [isWrite, List.countP_cons]

/-- C10 amended: for every iteration multiplier `kiters ≤ 0` whose wrapped
64-bit product `1000*kiters` is also non-positive (wrap-around makes the
product of a huge-magnitude negative multiplier positive — see the
counterexample), every executed benchmark performs zero `Write` and zero
`Read` operations (each loop bound is non-positive, so every loop runs zero
iterations), yet setup and teardown still occur: "writes" still performs
exactly one `Compact`, and every executed benchmark's handle is finished
exactly once and released last. -/
theorem kiters_nonpos_nowrap_noop (k : Int) (conf : Config)
    (pre post rpre rpost : Nat) (dsched rsched tsched bsched : List Nat)
    (par : Nat) (hk : k ≤ 0) (hkw : int64Mul 1000 k ≤ 0)
    (hm1 : conf.BenchFilter "writes" = true)
    (hm2 : conf.BenchFilter "write + compact" = true)
    (hm3 : conf.BenchFilter "rbuf reads" = true)
    (hm4 : conf.BenchFilter "table reads" = true)
    (hm5 : conf.BenchFilter (tableReadsParName par) = true)
    (hm6 : conf.BenchFilter (rbufReadsParName par) = true)
    (hm7 : conf.BenchFilter (readParCompactName par) = true)
    (hl : conf.ListBenches = false) :
    nIters k = 0
  ∧ (runBench conf "writes" 1 (writesBody k)).2
      = [Ev.compact, Ev.finishB, Ev.stopB]
  ∧ (runBench conf "rbuf reads" 1 (rbufReadsBody k)).2
      = [Ev.fill, Ev.reset, Ev.finishB, Ev.stopB]
  ∧ (runBench conf "table reads" 1 (tableReadsBody k)).2
      = [Ev.fill, Ev.compact, Ev.compact, Ev.reset, Ev.finishB, Ev.stopB]
  ∧ (runBenchT conf "write + compact"
        (writeCompactBody k pre post dsched, true)).2.countP isWrite = 0
  ∧ (runBenchT conf "write + compact"
        (writeCompactBody k pre post dsched, true)).2.countP isFinishEv = 1
  ∧ (runBenchT conf "write + compact"
        (writeCompactBody k pre post dsched, true)).2.getLast?
      = some Ev.stopB
  ∧ (runBenchT conf (tableReadsParName par)
        (tableReadsParBody par k tsched, false)).2.countP isRead = 0
  ∧ (runBenchT conf (tableReadsParName par)
        (tableReadsParBody par k tsched, false)).2.countP isFinishEv = 1
  ∧ (runBenchT conf (tableReadsParName par)
        (tableReadsParBody par k tsched, false)).2.getLast? = some Ev.stopB
  ∧ (runBenchT conf (rbufReadsParName par)
        (rbufReadsParBody par k bsched, false)).2.countP isRead = 0
  ∧ (runBenchT conf (rbufReadsParName par)
        (rbufReadsParBody par k bsched, false)).2.countP isFinishEv = 1
  ∧ (runBenchT conf (rbufReadsParName par)
        (rbufReadsParBody par k bsched, false)).2.getLast? = some Ev.stopB
  ∧ (runBenchT conf (readParCompactName par)
        (readParCompactBody par k rpre rpost rsched, true)).2.countP
          isRead = 0
  ∧ (runBenchT conf (readParCompactName par)
        (readParCompactBody par k rpre rpost rsched, true)).2.countP
          isFinishEv = 1
  ∧ (runBenchT conf (readParCompactName par)
        (readParCompactBody par k rpre rpost rsched, true)).2.getLast?
      = some Ev.stopB := by
  have h0 : nIters k = 0 := Int.toNat_of_nonpos hkw
  have hwct := wcRun_trace conf k pre post dsched hm2 hl
  have htrt := trRun_trace conf par k tsched hm5 hl
  have hrrt := rrRun_trace conf par k bsched hm6 hl
  have hrpt := rpRun_trace conf par k rpre rpost rsched hm7 hl
  refine ⟨h0, ?_, ?_, ?_, ?_, ?_, ?_, ?_, ?_, ?_, ?_, ?_, ?_, ?_, ?_, ?_⟩
  · rw [writes_trace_general conf k hm1 hl, h0]
    rfl
  · have hbody : rbufReadsBody k = [Cmd.fill, Cmd.reset] := by
      simp [rbufReadsBody, h0]
    rw [runBench_eq, hbody, runBenchT_exec _ _ _ hm3 hl]
    rfl
  · have hbody : tableReadsBody k
        = [Cmd.fill, Cmd.compact, Cmd.compact, Cmd.reset] := by
      simp [tableReadsBody, h0]
    rw [runBench_eq, hbody, runBenchT_exec _ _ _ hm4 hl]
    rfl
  · rw [hwct, List.countP_append, wcBody_countP_isWrite, h0]
    simp [isWrite, List.countP_cons]
  · rw [hwct, List.countP_append, wcBody_countP_isFinishEv]
    simp [isFinishEv, List.countP_cons]
  · rw [hwct]
    exact List.getLast?_concat _
  · rw [htrt, List.countP_append, trParBody_countP_isRead, h0]
    simp [isRead, List.countP_cons]
  · rw [htrt, List.countP_append, trParBody_countP_isFinishEv]
    simp [isFinishEv, List.countP_cons]
  · rw [htrt]
    have hconcat : ((tableReadsParBody par k tsched ++ [Ev.finishB])
        ++ [Ev.stopB]).getLast? = some Ev.stopB := List.getLast?_concat _
    rw [List.append_assoc] at hconcat
    exact hconcat
  · rw [hrrt, List.countP_append, rrParBody_countP_isRead, h0]
    simp [isRead, List.countP_cons]
  · rw [hrrt, List.countP_append, rrParBody_countP_isFinishEv]
    simp [isFinishEv, List.countP_cons]
  · rw [hrrt]
    have hconcat : ((rbufReadsParBody par k bsched ++ [Ev.finishB])
        ++ [Ev.stopB]).getLast? = some Ev.stopB := List.getLast?_concat _
    rw [List.append_assoc] at hconcat
    exact hconcat
  · rw [hrpt, List.countP_append, rpBody_countP_isRead, h0]
    simp [isRead, List.countP_cons]
  · rw [hrpt, List.countP_append, rpBody_countP_isFinishEv]
    simp [isFinishEv, List.countP_cons]
  · rw [hrpt]
    exact List.getLast?_concat _

/-- Concrete instance of amended C10 at multiplier `-1` (no wrap). -/
theorem kiters_nonpos_nowrap_noop_w :
    (runBench confExec "writes" 1 (writesBody (-1))).2
      = [Ev.compact, Ev.finishB, Ev.stopB] :=
  (kiters_nonpos_nowrap_noop (-1) confExec 0 0 0 0 [] [] [] [] 1
    (by decide) (by decide) rfl rfl rfl rfl rfl rfl rfl rfl).2.1

/-! ## C8: startup filter handling -/

/-- C8: a malformed (non-empty, uncompilable) filter pattern is fatal at
startup — `mainRun` returns the error and produces no benchmark output or
effects at all — and an empty pattern installs the match-everything default
filter. -/
theorem startup_filter (compileRx : String → Option (String → Bool))
    (fs : String) (listB : Bool) (k : Int) (par : Nat) (sc : RunSched) :
    (fs ≠ "" → compileRx fs = none →
      mainRun compileRx fs listB k par sc
        = .error ("invalid BenchFilter " ++ fs))
  ∧ (fs = "" →
      setupBenchFilter compileRx fs = .ok matchAll
    ∧ ∀ s, matchAll s = true) := by
  constructor
  · intro hne hc
    simp [mainRun, setupBenchFilter, hne, hc]
  · intro he
    subst he
    exact ⟨by simp [setupBenchFilter], fun _ => rfl⟩

/-- Concrete instance of C8: an uncompilable pattern aborts the run before
any benchmark. -/
theorem startup_filter_w :
    mainRun (fun _ => none) "[" false 1 2 ⟨0, 0, [], [], [], 0, 0, []⟩
      = .error ("invalid BenchFilter [") :=
  (startup_filter (fun _ => none) "[" false 1 2
    ⟨0, 0, [], [], [], 0, 0, []⟩).1 (by decide) rfl

/-! ## C9: the filter match is unanchored -/

/-- An execution-mode configuration whose filter is the literal pattern
"reads". -/
def confReads : Config :=
  { DatabaseDir := "bench.dir", DatabaseSize := 10000,
    BenchFilter := literalMatch "reads", ListBenches := false }

/-- C9: the filter is applied as an unanchored match — the pattern "reads"
selects "rbuf reads", "table reads" and the parallel read benchmarks
(whose names merely contain "reads" as a substring, not as the whole name),
while "writes" is not selected and its dispatch has zero output and zero
effects; selection is visible through the dispatcher, whose trace for a
selected benchmark is nonempty. -/
theorem filter_unanchored :
    literalMatch "reads" "rbuf reads" = true
  ∧ literalMatch "reads" "table reads" = true
  ∧ literalMatch "reads" "table reads (par=2)" = true
  ∧ literalMatch "reads" "rbuf reads (par=2)" = true
  ∧ literalMatch "reads" "writes" = false
  ∧ ("rbuf reads" ≠ "reads")
  ∧ (runBench confReads "rbuf reads" 1 (rbufReadsBody 0)).2
      = [Ev.fill, Ev.reset, Ev.finishB, Ev.stopB]
  ∧ runBench confReads "writes" 1 (writesBody 0) = ([], []) := by
  decide

end SimpleDbBench
